import Mathlib

/-!
Verification of the checkpointed step runner and its provisioning steps.

The development shallowly embeds the Python sources:
  * `Orch`  — orchestrator.py: checkpoint load/save and the resumable step loop;
  * `Apis`  — enabled_apis.py: per-API check/enable/poll with per-item fault tolerance;
  * `Iam`   — test.py: service-account creation and IAM role binding.

Remote control-plane calls are modelled as explicit behaviour records (each
call's outcome is a parameter), and console output / side effects are modelled
as event traces, so every claim becomes a statement about a pure Lean function.
-/

/-- Decidable equality of call outcomes, used to evaluate witnesses. -/
instance {e a : Type} [DecidableEq e] [DecidableEq a] : DecidableEq (Except e a) :=
  fun x y =>
    match x, y with
    | Except.ok u, Except.ok v =>
      if h : u = v then isTrue (by rw [h]) else isFalse (fun hc => h (Except.ok.inj hc))
    | Except.error u, Except.error v =>
      if h : u = v then isTrue (by rw [h]) else isFalse (fun hc => h (Except.error.inj hc))
    | Except.ok _, Except.error _ => isFalse (fun hc => Except.noConfusion hc)
    | Except.error _, Except.ok _ => isFalse (fun hc => Except.noConfusion hc)

namespace Orch

/-- JSON values, the shape of the checkpoint file's content
(`json.load` / `json.dump` in orchestrator.py). -/
inductive Json where
  | null : Json
  | bool (b : Bool) : Json
  | num (n : Int) : Json
  | str (s : String) : Json
  | arr (xs : List Json) : Json
  | obj (kvs : List (String × Json)) : Json

/-- Errors raised by the Python-level operations we model:
`json.JSONDecodeError` from `json.load`, and `KeyError` / `TypeError`
from subscripting and membership tests in `main`. -/
inductive PyErr where
  | jsonDecodeError : PyErr
  | keyError : PyErr
  | typeError : PyErr
deriving DecidableEq

/-- Skip JSON whitespace. -/
def skipWs : List Char → List Char
  | c :: cs => if c = ' ' ∨ c = '\n' ∨ c = '\t' ∨ c = '\r' then skipWs cs else c :: cs
  | [] => []

/-- Parse the body of a JSON string literal (after the opening quote),
handling the escapes `\"` and `\\`; returns the string and the rest. -/
def parseStringBody : List Char → Option (String × List Char)
  | [] => none
  | '"' :: rest => some ("", rest)
  | '\\' :: c :: rest =>
      (parseStringBody rest).map (fun p => (String.singleton c ++ p.1, p.2))
  | c :: rest =>
      (parseStringBody rest).map (fun p => (String.singleton c ++ p.1, p.2))

/-- Parse a run of digits into a natural number (accumulator style). -/
def parseDigits : List Char → Nat → Nat × List Char
  | c :: cs, acc =>
      if c.isDigit then parseDigits cs (acc * 10 + (c.toNat - '0'.toNat)) else (acc, c :: cs)
  | [], acc => (acc, [])

mutual

/-- Fuel-indexed recursive-descent parser for a JSON value,
modelling Python's `json.loads` on the documents this program reads. -/
def parseValue : Nat → List Char → Option (Json × List Char)
  | 0, _ => none
  | fuel + 1, cs =>
    match skipWs cs with
    | [] => none
    | c :: rest =>
      if c = '"' then
        (parseStringBody rest).map (fun p => (Json.str p.1, p.2))
      else if c = '[' then
        match skipWs rest with
        | ']' :: r => some (Json.arr [], r)
        | r => (parseArrayItems fuel r).map (fun p => (Json.arr p.1, p.2))
      else if c = '{' then
        match skipWs rest with
        | '}' :: r => some (Json.obj [], r)
        | r => (parseObjItems fuel r).map (fun p => (Json.obj p.1, p.2))
      else if c = 't' then
        match rest with
        | 'r' :: 'u' :: 'e' :: r => some (Json.bool true, r)
        | _ => none
      else if c = 'f' then
        match rest with
        | 'a' :: 'l' :: 's' :: 'e' :: r => some (Json.bool false, r)
        | _ => none
      else if c = 'n' then
        match rest with
        | 'u' :: 'l' :: 'l' :: r => some (Json.null, r)
        | _ => none
      else if c.isDigit then
        let p := parseDigits (c :: rest) 0
        some (Json.num (Int.ofNat p.1), p.2)
      else if c = '-' then
        match rest with
        | d :: rest2 =>
          if d.isDigit then
            let p := parseDigits (d :: rest2) 0
            some (Json.num (-(Int.ofNat p.1)), p.2)
          else none
        | [] => none
      else none

/-- Items of a JSON array after the opening bracket (nonempty case). -/
def parseArrayItems : Nat → List Char → Option (List Json × List Char)
  | 0, _ => none
  | fuel + 1, cs =>
    match parseValue fuel cs with
    | none => none
    | some (v, r) =>
      match skipWs r with
      | ',' :: r2 => (parseArrayItems fuel r2).map (fun p => (v :: p.1, p.2))
      | ']' :: r2 => some ([v], r2)
      | _ => none

/-- Members of a JSON object after the opening brace (nonempty case). -/
def parseObjItems : Nat → List Char → Option (List (String × Json) × List Char)
  | 0, _ => none
  | fuel + 1, cs =>
    match skipWs cs with
    | '"' :: r =>
      match parseStringBody r with
      | none => none
      | some (k, r2) =>
        match skipWs r2 with
        | ':' :: r3 =>
          match parseValue fuel r3 with
          | none => none
          | some (v, r4) =>
            match skipWs r4 with
            | ',' :: r5 => (parseObjItems fuel r5).map (fun p => ((k, v) :: p.1, p.2))
            | '}' :: r5 => some ([(k, v)], r5)
            | _ => none
        | _ => none
    | _ => none

end

/-- Model of Python's `json.loads`: parse one value and require only
whitespace after it.  An empty (or all-whitespace) input has no value to
parse and raises `JSONDecodeError` ("Expecting value"), as Python does. -/
def jsonLoads (s : String) : Except PyErr Json :=
  match parseValue (s.length + 1) s.toList with
  | none => Except.error PyErr.jsonDecodeError
  | some (v, rest) =>
    if skipWs rest = [] then Except.ok v else Except.error PyErr.jsonDecodeError

/-- orchestrator.py `load_checkpoint`: if the checkpoint file exists
(`file = some content`) its content is passed to `json.load` unvalidated;
if it is absent, the fresh state `{"completed": []}` is returned. -/
def load_checkpoint (file : Option String) : Except PyErr Json :=
  match file with
  | some content => jsonLoads content
  | none => Except.ok (Json.obj [("completed", Json.arr [])])

/-- Python subscripting `state["completed"]` on a parsed JSON value:
a dict lookup succeeds or raises `KeyError`; subscripting any non-dict
value with a string raises `TypeError`. -/
def pySubscript (j : Json) (key : String) : Except PyErr Json :=
  match j with
  | Json.obj kvs =>
    match kvs.lookup key with
    | some v => Except.ok v
    | none => Except.error PyErr.keyError
  | _ => Except.error PyErr.typeError

/-- Python membership `name in v` for a string `name` and a parsed JSON
value `v`: element equality on lists, substring test on strings, key
membership on dicts; on any other value Python raises `TypeError`
("argument of type ... is not iterable"). -/
def pyIn (name : String) (j : Json) : Except PyErr Bool :=
  match j with
  | Json.arr xs =>
    Except.ok (xs.any (fun v => match v with | Json.str s => s = name | _ => false))
  | Json.str s => Except.ok (decide (List.IsInfix name.toList s.toList))
  | Json.obj kvs => Except.ok (kvs.any (fun kv => kv.1 = name))
  | _ => Except.error PyErr.typeError

/-- The runner's first membership check on the loaded state
(`if step_name in state["completed"]`, orchestrator.py line 56). -/
def firstCheck (state : Json) (name : String) : Except PyErr Bool :=
  match pySubscript state "completed" with
  | Except.ok v => pyIn name v
  | Except.error e => Except.error e

/-- Does the parsed state carry a top-level `"completed"` key? -/
def hasCompletedKey (j : Json) : Bool :=
  match j with
  | Json.obj kvs => kvs.any (fun kv => kv.1 = "completed")
  | _ => false

/-- Is the parsed state a JSON object (a Python dict)? -/
def isObj (j : Json) : Bool :=
  match j with
  | Json.obj _ => true
  | _ => false

/-- One entry of the `STEPS` table in orchestrator.py: a name, the module
and function the step dispatches to, and its keyword-argument bundle. -/
structure Step where
  name : String
  module : String
  func : String
  args : List (String × String)
deriving DecidableEq

/-- The concrete `STEPS` table of orchestrator.py. -/
def STEPS : List Step :=
  [ { name := "create_project", module := "scripts.create_project",
      func := "run_project_creation",
      args := [("region", "us"), ("env", "uat"),
               ("appPostfix", "aiagent-nav"), ("lob", "adv")] },
    { name := "enable_apis", module := "scripts.enable_apis", func := "main",
      args := [("project_id", "prj-us-adv-aiagnt-nav-uat")] },
    { name := "configure_network", module := "scripts.configure_network", func := "main",
      args := [("project_id", "prj-us-adv-aiagnt-nav-uat"), ("env_type", "uat"),
               ("vpc_name", "uat-shared-vpc")] },
    { name := "deploy_app", module := "scripts.deploy_app", func := "main",
      args := [("project_id", "prj-us-adv-aiagnt-nav-uat")] } ]

/-- Observable actions of one run of `main` in orchestrator.py:
`skipped n` is the "Skipping n (already done)" notice; `invoked n` is the
"Running n …" line together with the `run_step` call; `appended n` is
`state["completed"].append(n)`; `saved l` is `save_checkpoint` writing the
completed list `l`; `failed n e` is the error print for step `n` with
message `e`, the `traceback.print_exc()` trace, and the stop notice. -/
inductive Event where
  | skipped (name : String) : Event
  | invoked (name : String) : Event
  | appended (name : String) : Event
  | saved (completed : List String) : Event
  | failed (name : String) (err : String) : Event
deriving DecidableEq

/-- The loop of `main` (orchestrator.py lines 54–69) over an explicit step
list.  `beh s` is the outcome of `run_step(s.module, s.func, s.args)` —
`Except.ok ()` for a normal return, `Except.error e` for a raised
exception.  The loop threads the in-memory completed list and the
persisted checkpoint file (`none` = file absent), and returns the event
trace, the final in-memory completed list, and the final file content.
The `Except.error` branch models the `except` clause: the error is
reported and the loop breaks; nothing propagates (the function is total). -/
def runLoop (beh : Step → Except String Unit) :
    List Step → List String → Option (List String) →
    List Event × List String × Option (List String)
  | [], completed, file => ([], completed, file)
  | s :: rest, completed, file =>
    if s.name ∈ completed then
      let r := runLoop beh rest completed file
      (Event.skipped s.name :: r.1, r.2.1, r.2.2)
    else
      match beh s with
      | Except.ok _ =>
        let c1 := completed ++ [s.name]
        let r := runLoop beh rest c1 (some c1)
        (Event.invoked s.name :: Event.appended s.name :: Event.saved c1 :: r.1,
         r.2.1, r.2.2)
      | Except.error e =>
        ([Event.invoked s.name, Event.failed s.name e], completed, file)

/-- The completed list `main` starts from, given the persisted file:
the runner proceeds only on the well-formed flat state
`{"completed": [...]}` (see `firstCheck` for the other shapes), so the
loop-level model reads the completed name list, or `[]` if the file is
absent (`load_checkpoint`'s fresh state). -/
def loadedCompleted (file : Option (List String)) : List String :=
  match file with
  | some l => l
  | none => []

/-- `main` of orchestrator.py: load the checkpoint, then run the loop
over the `STEPS` table. -/
def main (beh : Step → Except String Unit) (file : Option (List String)) :
    List Event × List String × Option (List String) :=
  runLoop beh STEPS (loadedCompleted file) file

/-- Names of the steps a trace invoked, in trace order. -/
def invokedNames (evs : List Event) : List String :=
  evs.filterMap (fun e => match e with | Event.invoked n => some n | _ => none)

/-- Names of the steps a trace skipped, in trace order. -/
def skippedNames (evs : List Event) : List String :=
  evs.filterMap (fun e => match e with | Event.skipped n => some n | _ => none)

/-- Names a trace appended to the completed list, in trace order. -/
def appendedNames (evs : List Event) : List String :=
  evs.filterMap (fun e => match e with | Event.appended n => some n | _ => none)

/-- A step behaviour in which every `run_step` call returns normally. -/
def behAllOk : Step → Except String Unit := fun _ => Except.ok ()

/-- A step behaviour in which the `enable_apis` step raises and every
other step returns normally. -/
def behFailEnable : Step → Except String Unit := fun s =>
  if s.name = "enable_apis" then Except.error "boom" else Except.ok ()

end Orch

namespace Apis

/-- The `REQUIRED_APIS` constant of enabled_apis.py. -/
def REQUIRED_APIS : List String :=
  [ "certificatemanager.googleapis.com", "cloudresourcemanager.googleapis.com",
    "iam.googleapis.com", "iamcredentials.googleapis.com", "sts.googleapis.com",
    "serviceusage.googleapis.com", "cloudbilling.googleapis.com",
    "compute.googleapis.com", "dns.googleapis.com", "logging.googleapis.com",
    "monitoring.googleapis.com", "cloudkms.googleapis.com",
    "orgpolicy.googleapis.com", "servicenetworking.googleapis.com",
    "artifactregistry.googleapis.com", "run.googleapis.com",
    "storage.googleapis.com", "sqladmin.googleapis.com",
    "aiplatform.googleapis.com", "bigquery.googleapis.com",
    "cloudbuild.googleapis.com", "pubsub.googleapis.com",
    "spanner.googleapis.com", "secretmanager.googleapis.com",
    "vpcaccess.googleapis.com", "networkservices.googleapis.com",
    "eventarc.googleapis.com", "notebooks.googleapis.com" ]

/-- `api_list = api_list or REQUIRED_APIS` (line 50): Python `or` falls back
to the default when the argument is `None` or an empty (falsy) list. -/
def resolveApiList (apiList : Option (List String)) : List String :=
  match apiList with
  | none => REQUIRED_APIS
  | some [] => REQUIRED_APIS
  | some l => l

/-- Outcomes of the remote serviceusage calls made for one API:
`getResp` is `services().get(...).execute()` reduced to its `"state"`
field (`none` when the response has no such field); `enableResp` is
`services().enable(...).execute()` reduced to the optional `"name"` field
of the returned operation; `pollResp k` is the `k`-th
`operations().get(...).execute()` reduced to the truthiness of its
`"done"` field.  `Except.error` models a raised exception. -/
structure ApiBehavior where
  getResp : Except String (Option String)
  enableResp : Except String (Option String)
  pollResp : Nat → Except String Bool

/-- Console/side-effect events of the per-API body of `enable_apis`:
`alreadyEnabled` is the skip print, `enabling` is the enable print
together with the issued enable request, `poll a k` is the `k`-th
operation-status request for API `a`, `sleepSecs 2` is `time.sleep(2)`,
`enabled` is the success print, and `errorLogged a e` is the
`except` clause's "Error with enabling API a: e" print. -/
inductive ApiEvent where
  | alreadyEnabled (api : String) : ApiEvent
  | enabling (api : String) : ApiEvent
  | poll (api : String) (k : Nat) : ApiEvent
  | sleepSecs (n : Nat) : ApiEvent
  | enabled (api : String) : ApiEvent
  | errorLogged (api : String) (err : String) : ApiEvent
deriving DecidableEq

/-- The `while True` polling loop (enabled_apis.py lines 69–74): poll the
operation; if it reports done, print success and stop; otherwise sleep two
seconds and poll again.  `fuel` bounds the number of iterations we unroll;
`none` means the loop was still running after `fuel` polls. -/
def pollLoop (api : String) (poll : Nat → Except String Bool) :
    Nat → Nat → Option (List ApiEvent × Except String Unit)
  | _, 0 => none
  | k, fuel + 1 =>
    match poll k with
    | Except.error e => some ([ApiEvent.poll api k], Except.error e)
    | Except.ok true => some ([ApiEvent.poll api k, ApiEvent.enabled api], Except.ok ())
    | Except.ok false =>
      (pollLoop api poll (k + 1) fuel).map
        (fun r => (ApiEvent.poll api k :: ApiEvent.sleepSecs 2 :: r.1, r.2))

/-- The body of the `try` block for one API (enabled_apis.py lines 57–74):
check the current state; skip if `ENABLED`; otherwise issue the enable
request and, only if the returned operation carries a `"name"`, poll until
done.  Returns the trace plus the body's outcome (`Except.error` = an
exception to be caught by the `except` clause); `none` = polling still
running after `fuel` polls. -/
def runApiBody (b : ApiBehavior) (api : String) (fuel : Nat) :
    Option (List ApiEvent × Except String Unit) :=
  match b.getResp with
  | Except.error e => some ([], Except.error e)
  | Except.ok st =>
    if st = some "ENABLED" then some ([ApiEvent.alreadyEnabled api], Except.ok ())
    else
      match b.enableResp with
      | Except.error e => some ([ApiEvent.enabling api], Except.error e)
      | Except.ok none => some ([ApiEvent.enabling api], Except.ok ())
      | Except.ok (some _) =>
        (pollLoop api b.pollResp 0 fuel).map
          (fun r => (ApiEvent.enabling api :: r.1, r.2))

/-- One iteration of the `for api in api_list` loop: the `try`/`except`
wrapper around `runApiBody`.  A raised exception is caught and logged;
the iteration itself always finishes normally. -/
def processApi (b : ApiBehavior) (api : String) (fuel : Nat) :
    Option (List ApiEvent) :=
  (runApiBody b api fuel).map
    (fun r =>
      match r.2 with
      | Except.ok _ => r.1
      | Except.error e => r.1 ++ [ApiEvent.errorLogged api e])

/-- `enable_apis` (enabled_apis.py lines 54–77) over an explicit API list:
process each API in order, independently; the function has no failure
outcome of its own — errors appear only as `errorLogged` events. -/
def enable_apis (w : String → ApiBehavior) (apis : List String) (fuel : Nat) :
    Option (List ApiEvent) :=
  match apis with
  | [] => some []
  | a :: rest =>
    match processApi (w a) a fuel with
    | none => none
    | some t =>
      match enable_apis w rest fuel with
      | none => none
      | some ts => some (t ++ ts)

/-- The API an event is about (`none` for the sleep event). -/
def eventApi (e : ApiEvent) : Option String :=
  match e with
  | ApiEvent.alreadyEnabled a => some a
  | ApiEvent.enabling a => some a
  | ApiEvent.poll a _ => some a
  | ApiEvent.sleepSecs _ => none
  | ApiEvent.enabled a => some a
  | ApiEvent.errorLogged a _ => some a

/-- The trace of a polling phase that finds the operation done on poll
`j + n`, having started at poll `j`: polls with two-second sleeps between
them, ending with the done poll and the success print. -/
def pollSegment (api : String) (j : Nat) : Nat → List ApiEvent
  | 0 => [ApiEvent.poll api j, ApiEvent.enabled api]
  | n + 1 => ApiEvent.poll api j :: ApiEvent.sleepSecs 2 :: pollSegment api (j + 1) n

end Apis

namespace Iam

/-- The service-account email computed at the top of
`create_service_account` (test.py line 6):
`f"{service_account_id}@{project_id}.iam.gserviceaccount.com"`. -/
def sa_email (service_account_id project_id : String) : String :=
  service_account_id ++ "@" ++ project_id ++ ".iam.gserviceaccount.com"

/-- The remote IAM surface: the set of (project, accountId) service
accounts that exist.  Modelling the external control plane of spec §4.4 /
§7: creating an account that already exists raises an error whose text
contains "already exists"; otherwise the account is created and the call
returns normally. -/
structure IamWorld where
  accounts : List (String × String)

/-- Error text the remote side raises for a duplicate create. -/
def alreadyExistsMsg (email : String) : String :=
  "Service account " ++ email ++ " already exists"

/-- The remote `projects().serviceAccounts().create(...).execute()` call
against `IamWorld`; on success the response carries the new email. -/
def iamCreate (w : IamWorld) (project_id service_account_id : String) :
    IamWorld × Except String String :=
  if (project_id, service_account_id) ∈ w.accounts then
    (w, Except.error (alreadyExistsMsg (sa_email service_account_id project_id)))
  else
    ({ accounts := w.accounts ++ [(project_id, service_account_id)] },
     Except.ok (sa_email service_account_id project_id))

/-- `create_service_account` (test.py lines 5–30) against `IamWorld`:
compute the email, attempt the create, and on an exception whose text
contains "already exists" return the email as success; any other
exception is re-raised. -/
def create_service_account (w : IamWorld)
    (project_id service_account_id _display_name : String) :
    IamWorld × Except String String :=
  let email := sa_email service_account_id project_id
  let r := iamCreate w project_id service_account_id
  match r.2 with
  | Except.ok _ => (r.1, Except.ok email)
  | Except.error e =>
    if decide (List.IsInfix "already exists".toList e.toList) then
      (r.1, Except.ok email)
    else (r.1, Except.error e)

/-- One role binding of an IAM policy: `{'role': ..., 'members': [...]}`. -/
structure Binding where
  role : String
  members : List String
deriving DecidableEq

/-- A project IAM policy as fetched by `getIamPolicy`: its binding list. -/
structure Policy where
  bindings : List Binding
deriving DecidableEq

/-- The `for binding in policy['bindings']` scan of
`assign_roles_to_sa_in_project` (test.py lines 40–48): at the first
binding whose role matches, either leave it alone (when the bare
`sa_email` string is among its members) or append the
`"serviceAccount:" + sa_email` entry, and break.  Returns `none` when no
binding matched (`binding_exists` stayed false). -/
def scanBindings (sa_email role : String) : List Binding → Option (List Binding)
  | [] => none
  | b :: rest =>
    if b.role = role then
      if sa_email ∈ b.members then some (b :: rest)
      else some ({ b with members := b.members ++ ["serviceAccount:" ++ sa_email] } :: rest)
    else (scanBindings sa_email role rest).map (fun bs => b :: bs)

/-- The per-role read-modify step (test.py lines 34–54): fetch the policy,
update the first matching binding, or append a fresh binding when the role
is unbound. -/
def assignRole (sa_email role : String) (p : Policy) : Policy :=
  match scanBindings sa_email role p.bindings with
  | some bs => { bindings := bs }
  | none =>
    { bindings := p.bindings ++ [{ role := role,
                                   members := ["serviceAccount:" ++ sa_email] }] }

/-- `assign_roles_to_sa_in_project` (test.py lines 32–65) against a remote
policy: for each role, one `getIamPolicy` read, the in-memory update, and
one unconditional `setIamPolicy` write.  Returns the final remote policy
and the list of `setIamPolicy` payloads, one per role. -/
def assign_roles_to_sa_in_project (sa_email _target_project_id : String) :
    List String → Policy → Policy × List Policy
  | [], p => (p, [])
  | role :: roles, p =>
    let p1 := assignRole sa_email role p
    let r := assign_roles_to_sa_in_project sa_email _target_project_id roles p1
    (r.1, p1 :: r.2)

end Iam

namespace Orch

theorem mem_invokedNames {evs : List Event} {n : String} :
    n ∈ invokedNames evs ↔ Event.invoked n ∈ evs := by
  unfold invokedNames
  rw [List.mem_filterMap]
  constructor
  · rintro ⟨e, he, hfe⟩
    cases e <;> simp_all
  · intro h
    exact ⟨Event.invoked n, h, rfl⟩

theorem mem_skippedNames {evs : List Event} {n : String} :
    n ∈ skippedNames evs ↔ Event.skipped n ∈ evs := by
  unfold skippedNames
  rw [List.mem_filterMap]
  constructor
  · rintro ⟨e, he, hfe⟩
    cases e <;> simp_all
  · intro h
    exact ⟨Event.skipped n, h, rfl⟩

theorem mem_appendedNames {evs : List Event} {n : String} :
    n ∈ appendedNames evs ↔ Event.appended n ∈ evs := by
  unfold appendedNames
  rw [List.mem_filterMap]
  constructor
  · rintro ⟨e, he, hfe⟩
    cases e <;> simp_all
  · intro h
    exact ⟨Event.appended n, h, rfl⟩

theorem runLoop_completed_eq (beh : Step → Except String Unit) :
    ∀ (steps : List Step) (C : List String) (f : Option (List String)),
    (runLoop beh steps C f).2.1 = C ++ appendedNames (runLoop beh steps C f).1 := by
  intro steps
  induction steps with
  | nil => intro C f; simp [runLoop, appendedNames]
  | cons s rest ih =>
    intro C f
    by_cases h : s.name ∈ C
    · simp only [runLoop, if_pos h]
      simpa [appendedNames] using ih C f
    · simp only [runLoop, if_neg h]
      cases hb : beh s with
      | ok u =>
        simpa [appendedNames, List.append_assoc] using ih (C ++ [s.name]) (some (C ++ [s.name]))
      | error e => simp [appendedNames]

theorem runLoop_file_cases (beh : Step → Except String Unit) :
    ∀ (steps : List Step) (C : List String) (f : Option (List String)),
    ((runLoop beh steps C f).2.2 = f ∧ appendedNames (runLoop beh steps C f).1 = []) ∨
      (runLoop beh steps C f).2.2 = some (runLoop beh steps C f).2.1 := by
  intro steps
  induction steps with
  | nil => intro C f; exact Or.inl ⟨rfl, rfl⟩
  | cons s rest ih =>
    intro C f
    by_cases h : s.name ∈ C
    · simp only [runLoop, if_pos h]
      rcases ih C f with ⟨h1, h2⟩ | h1
      · exact Or.inl ⟨h1, by simpa [appendedNames] using h2⟩
      · exact Or.inr (by simpa [appendedNames] using h1)
    · simp only [runLoop, if_neg h]
      cases hb : beh s with
      | ok u =>
        refine Or.inr ?_
        rcases ih (C ++ [s.name]) (some (C ++ [s.name])) with ⟨h1, h2⟩ | h1
        · have hc := runLoop_completed_eq beh rest (C ++ [s.name]) (some (C ++ [s.name]))
          rw [h2, List.append_nil] at hc
          simpa [hc] using h1
        · simpa using h1
      | error e => exact Or.inl ⟨rfl, by simp [appendedNames]⟩

theorem invoked_mem_stepNames (beh : Step → Except String Unit) :
    ∀ (steps : List Step) (C : List String) (f : Option (List String)) (n : String),
    Event.invoked n ∈ (runLoop beh steps C f).1 → n ∈ steps.map Step.name := by
  intro steps
  induction steps with
  | nil => intro C f n h; simp [runLoop] at h
  | cons s rest ih =>
    intro C f n h
    by_cases hm : s.name ∈ C
    · simp only [runLoop, if_pos hm] at h
      rw [List.mem_cons] at h
      rcases h with h | h
      · simp at h
      · exact List.mem_cons_of_mem _ (ih C f n h)
    · simp only [runLoop, if_neg hm] at h
      cases hb : beh s with
      | ok u =>
        rw [hb] at h
        simp only [List.mem_cons] at h
        rcases h with h | h | h | h
        · rw [Event.invoked.injEq] at h
          simp [h]
        · cases h
        · cases h
        · exact List.mem_cons_of_mem _ (ih (C ++ [s.name]) (some (C ++ [s.name])) n h)
      | error e =>
        rw [hb] at h
        simp only [List.mem_cons] at h
        rcases h with h | h | h
        · rw [Event.invoked.injEq] at h
          simp [h]
        · cases h
        · cases h

theorem appended_mem_stepNames (beh : Step → Except String Unit) :
    ∀ (steps : List Step) (C : List String) (f : Option (List String)) (n : String),
    Event.appended n ∈ (runLoop beh steps C f).1 → n ∈ steps.map Step.name := by
  intro steps
  induction steps with
  | nil => intro C f n h; simp [runLoop] at h
  | cons s rest ih =>
    intro C f n h
    by_cases hm : s.name ∈ C
    · simp only [runLoop, if_pos hm] at h
      rw [List.mem_cons] at h
      rcases h with h | h
      · simp at h
      · exact List.mem_cons_of_mem _ (ih C f n h)
    · simp only [runLoop, if_neg hm] at h
      cases hb : beh s with
      | ok u =>
        rw [hb] at h
        simp only [List.mem_cons] at h
        rcases h with h | h | h | h
        · cases h
        · rw [Event.appended.injEq] at h
          simp [h]
        · cases h
        · exact List.mem_cons_of_mem _ (ih (C ++ [s.name]) (some (C ++ [s.name])) n h)
      | error e =>
        rw [hb] at h
        simp only [List.mem_cons] at h
        rcases h with h | h | h
        · cases h
        · cases h
        · cases h

theorem runLoop_ok_spec (beh : Step → Except String Unit) :
    ∀ (steps : List Step) (C : List String) (f : Option (List String)),
    (∀ s ∈ steps, beh s = Except.ok ()) → (steps.map Step.name).Nodup →
    invokedNames (runLoop beh steps C f).1 =
      (steps.filter (fun s => s.name ∉ C)).map Step.name ∧
    skippedNames (runLoop beh steps C f).1 =
      (steps.filter (fun s => s.name ∈ C)).map Step.name := by
  intro steps
  induction steps with
  | nil => intro C f _ _; simp [runLoop, invokedNames, skippedNames]
  | cons s rest ih =>
    intro C f hok hnd
    rw [List.map_cons, List.nodup_cons] at hnd
    have hok' : ∀ t ∈ rest, beh t = Except.ok () :=
      fun t ht => hok t (List.mem_cons_of_mem _ ht)
    by_cases h : s.name ∈ C
    · simp only [runLoop, if_pos h]
      obtain ⟨h1, h2⟩ := ih C f hok' hnd.2
      constructor
      · simpa [invokedNames, List.filter_cons, h] using h1
      · simpa [skippedNames, List.filter_cons, h] using h2
    · simp only [runLoop, if_neg h]
      rw [hok s (List.mem_cons_self s rest)]
      obtain ⟨h1, h2⟩ := ih (C ++ [s.name]) (some (C ++ [s.name])) hok' hnd.2
      have hne : ∀ t ∈ rest, t.name ≠ s.name := by
        intro t ht hEq
        exact hnd.1 (hEq ▸ List.mem_map_of_mem Step.name ht)
      have hfilt1 : rest.filter (fun t => t.name ∉ C ++ [s.name]) =
          rest.filter (fun t => t.name ∉ C) := by
        apply List.filter_congr
        intro t ht
        simp [List.mem_append, hne t ht]
      have hfilt2 : rest.filter (fun t => t.name ∈ C ++ [s.name]) =
          rest.filter (fun t => t.name ∈ C) := by
        apply List.filter_congr
        intro t ht
        simp [List.mem_append, hne t ht]
      rw [hfilt1] at h1
      rw [hfilt2] at h2
      constructor
      · simpa [invokedNames, List.filter_cons, h] using h1
      · simpa [skippedNames, List.filter_cons, h] using h2

theorem runLoop_mem_completed (beh : Step → Except String Unit) :
    ∀ (steps : List Step) (C : List String) (f : Option (List String)),
    (∀ s ∈ steps, beh s = Except.ok ()) →
    ∀ s ∈ steps, s.name ∈ (runLoop beh steps C f).2.1 := by
  intro steps
  induction steps with
  | nil => intro C f _ s hs; cases hs
  | cons t rest ih =>
    intro C f hok s hs
    have hok' : ∀ u ∈ rest, beh u = Except.ok () :=
      fun u hu => hok u (List.mem_cons_of_mem _ hu)
    by_cases h : t.name ∈ C
    · simp only [runLoop, if_pos h]
      rcases List.mem_cons.mp hs with hEq | hs'
      · have := runLoop_completed_eq beh rest C f
        rw [this]
        exact List.mem_append_left _ (hEq ▸ h)
      · exact ih C f hok' s hs'
    · simp only [runLoop, if_neg h]
      rw [hok t (List.mem_cons_self t rest)]
      rcases List.mem_cons.mp hs with hEq | hs'
      · have := runLoop_completed_eq beh rest (C ++ [t.name]) (some (C ++ [t.name]))
        rw [this]
        subst hEq
        exact List.mem_append_left _ (List.mem_append_right _ (List.mem_singleton.mpr rfl))
      · exact ih (C ++ [t.name]) (some (C ++ [t.name])) hok' s hs'

theorem runLoop_all_skip (beh : Step → Except String Unit) :
    ∀ (steps : List Step) (C : List String) (f : Option (List String)),
    (∀ s ∈ steps, s.name ∈ C) →
    runLoop beh steps C f = (steps.map (fun s => Event.skipped s.name), C, f) := by
  intro steps
  induction steps with
  | nil => intro C f _; simp [runLoop]
  | cons s rest ih =>
    intro C f hall
    have h : s.name ∈ C := hall s (List.mem_cons_self s rest)
    simp only [runLoop, if_pos h]
    rw [ih C f (fun t ht => hall t (List.mem_cons_of_mem _ ht))]
    simp

theorem runLoop_failure (beh : Step → Except String Unit) (s : Step) (e : String)
    (hfail : beh s = Except.error e) :
    ∀ (pre : List Step) (post : List Step) (C : List String) (f : Option (List String)),
    (∀ t ∈ pre, t.name ∈ C ∨ beh t = Except.ok ()) →
    s.name ∉ C → s.name ∉ pre.map Step.name →
    runLoop beh (pre ++ s :: post) C f =
      ((runLoop beh pre C f).1 ++ [Event.invoked s.name, Event.failed s.name e],
       (runLoop beh pre C f).2.1, (runLoop beh pre C f).2.2) := by
  intro pre
  induction pre with
  | nil =>
    intro post C f _ hsC _
    simp only [List.nil_append, runLoop, if_neg hsC, hfail]
  | cons t pre' ih =>
    intro post C f hpre hsC hspre
    rw [List.map_cons, List.mem_cons] at hspre
    push_neg at hspre
    by_cases h : t.name ∈ C
    · simp only [List.cons_append, runLoop, if_pos h]
      simp only [List.append_eq]
      rw [ih post C f (fun u hu => hpre u (List.mem_cons_of_mem _ hu)) hsC hspre.2]
    · have hok : beh t = Except.ok () := by
        rcases hpre t (List.mem_cons_self t pre') with h' | h'
        · exact absurd h' h
        · exact h'
      simp only [List.cons_append, runLoop, if_neg h, hok]
      simp only [List.append_eq]
      have hpre' : ∀ u ∈ pre', u.name ∈ C ++ [t.name] ∨ beh u = Except.ok () := by
        intro u hu
        rcases hpre u (List.mem_cons_of_mem _ hu) with h' | h'
        · exact Or.inl (List.mem_append_left _ h')
        · exact Or.inr h'
      have hsC' : s.name ∉ C ++ [t.name] := by
        rw [List.mem_append, List.mem_singleton]
        push_neg
        exact ⟨hsC, hspre.1⟩
      rw [ih post (C ++ [t.name]) (some (C ++ [t.name])) hpre' hsC' hspre.2]

theorem appended_has_ok_step (beh : Step → Except String Unit) :
    ∀ (steps : List Step) (C : List String) (f : Option (List String)) (n : String),
    Event.appended n ∈ (runLoop beh steps C f).1 →
    ∃ s, s ∈ steps ∧ s.name = n ∧ beh s = Except.ok () := by
  intro steps
  induction steps with
  | nil => intro C f n h; simp [runLoop] at h
  | cons s rest ih =>
    intro C f n h
    by_cases hm : s.name ∈ C
    · simp only [runLoop, if_pos hm] at h
      rw [List.mem_cons] at h
      rcases h with h | h
      · simp at h
      · obtain ⟨t, ht, hn, hok⟩ := ih C f n h
        exact ⟨t, List.mem_cons_of_mem _ ht, hn, hok⟩
    · simp only [runLoop, if_neg hm] at h
      cases hb : beh s with
      | ok u =>
        rw [hb] at h
        simp only [List.mem_cons] at h
        rcases h with h | h | h | h
        · cases h
        · rw [Event.appended.injEq] at h
          exact ⟨s, List.mem_cons_self s rest, h.symm, by rw [hb]⟩
        · cases h
        · obtain ⟨t, ht, hn, hok⟩ := ih (C ++ [s.name]) (some (C ++ [s.name])) n h
          exact ⟨t, List.mem_cons_of_mem _ ht, hn, hok⟩
      | error e =>
        rw [hb] at h
        simp only [List.mem_cons] at h
        rcases h with h | h | h
        · cases h
        · cases h
        · cases h

theorem runLoop_saved_content (beh : Step → Except String Unit) :
    ∀ (steps : List Step) (C : List String) (f : Option (List String)) (l : List String),
    Event.saved l ∈ (runLoop beh steps C f).1 →
    ∀ n ∈ l, n ∈ C ∨ Event.appended n ∈ (runLoop beh steps C f).1 := by
  intro steps
  induction steps with
  | nil => intro C f l h; simp [runLoop] at h
  | cons s rest ih =>
    intro C f l h n hn
    by_cases hm : s.name ∈ C
    · simp only [runLoop, if_pos hm] at h ⊢
      rw [List.mem_cons] at h
      rcases h with h | h
      · simp at h
      · rcases ih C f l h n hn with h' | h'
        · exact Or.inl h'
        · exact Or.inr (List.mem_cons_of_mem _ h')
    · cases hb : beh s with
      | ok u =>
        simp only [runLoop, if_neg hm, hb] at h ⊢
        simp only [List.mem_cons] at h
        rcases h with h | h | h | h
        · cases h
        · cases h
        · rw [Event.saved.injEq] at h
          subst h
          rcases List.mem_append.mp hn with h' | h'
          · exact Or.inl h'
          · rw [List.mem_singleton] at h'
            subst h'
            simp
        · rcases ih (C ++ [s.name]) (some (C ++ [s.name])) l h n hn with h' | h'
          · rcases List.mem_append.mp h' with h'' | h''
            · exact Or.inl h''
            · rw [List.mem_singleton] at h''
              subst h''
              simp
          · simp [h']
      | error e =>
        simp only [runLoop, if_neg hm, hb] at h
        simp only [List.mem_cons] at h
        rcases h with h | h | h
        · cases h
        · cases h
        · cases h

theorem runLoop_file_saved (beh : Step → Except String Unit) :
    ∀ (steps : List Step) (C : List String) (f : Option (List String)),
    (runLoop beh steps C f).2.2 = f ∨
      ∃ l, (runLoop beh steps C f).2.2 = some l ∧
        Event.saved l ∈ (runLoop beh steps C f).1 := by
  intro steps
  induction steps with
  | nil => intro C f; exact Or.inl rfl
  | cons s rest ih =>
    intro C f
    by_cases hm : s.name ∈ C
    · simp only [runLoop, if_pos hm]
      rcases ih C f with h | ⟨l, h1, h2⟩
      · exact Or.inl h
      · exact Or.inr ⟨l, h1, List.mem_cons_of_mem _ h2⟩
    · simp only [runLoop, if_neg hm]
      cases hb : beh s with
      | ok u =>
        refine Or.inr ?_
        rcases ih (C ++ [s.name]) (some (C ++ [s.name])) with h | ⟨l, h1, h2⟩
        · exact ⟨C ++ [s.name], h, by simp⟩
        · exact ⟨l, h1, by simp [h2]⟩
      | error e => exact Or.inl rfl

theorem runLoop_head_not_appended (beh : Step → Except String Unit) :
    ∀ (steps : List Step) (C : List String) (f : Option (List String)) (n : String),
    (runLoop beh steps C f).1[0]? ≠ some (Event.appended n) := by
  intro steps C f n h
  cases steps with
  | nil => simp [runLoop] at h
  | cons s rest =>
    by_cases hm : s.name ∈ C
    · simp only [runLoop, if_pos hm] at h
      simp at h
    · simp only [runLoop, if_neg hm] at h
      cases hb : beh s with
      | ok u => rw [hb] at h; simp at h
      | error e => rw [hb] at h; simp at h

theorem runLoop_save_follows_append (beh : Step → Except String Unit) :
    ∀ (steps : List Step) (C : List String) (f : Option (List String)) (i : Nat) (n : String),
    (runLoop beh steps C f).1[i]? = some (Event.appended n) →
    ∃ l, (runLoop beh steps C f).1[i + 1]? = some (Event.saved l) ∧ n ∈ l := by
  intro steps
  induction steps with
  | nil => intro C f i n h; simp [runLoop] at h
  | cons s rest ih =>
    intro C f i n h
    by_cases hm : s.name ∈ C
    · simp only [runLoop, if_pos hm] at h ⊢
      cases i with
      | zero => simp at h
      | succ i =>
        rw [List.getElem?_cons_succ] at h
        obtain ⟨l, hl, hn⟩ := ih C f i n h
        exact ⟨l, by rwa [List.getElem?_cons_succ], hn⟩
    · cases hb : beh s with
      | ok u =>
        simp only [runLoop, if_neg hm, hb] at h ⊢
        cases i with
        | zero => simp at h
        | succ i =>
          cases i with
          | zero =>
            rw [List.getElem?_cons_succ, List.getElem?_cons_zero] at h
            rw [Option.some.injEq, Event.appended.injEq] at h
            subst h
            exact ⟨C ++ [s.name], by simp, by simp⟩
          | succ i =>
            cases i with
            | zero => simp at h
            | succ i =>
              rw [List.getElem?_cons_succ, List.getElem?_cons_succ,
                List.getElem?_cons_succ] at h
              obtain ⟨l, hl, hn⟩ := ih (C ++ [s.name]) (some (C ++ [s.name])) i n h
              refine ⟨l, ?_, hn⟩
              rw [List.getElem?_cons_succ, List.getElem?_cons_succ,
                List.getElem?_cons_succ]
              exact hl
      | error e =>
        simp only [runLoop, if_neg hm, hb] at h
        cases i with
        | zero => simp at h
        | succ i =>
          cases i with
          | zero => simp at h
          | succ i => simp at h

theorem runLoop_invoke_precedes_append (beh : Step → Except String Unit) :
    ∀ (steps : List Step) (C : List String) (f : Option (List String)) (i : Nat) (n : String),
    (runLoop beh steps C f).1[i + 1]? = some (Event.appended n) →
    (runLoop beh steps C f).1[i]? = some (Event.invoked n) := by
  intro steps
  induction steps with
  | nil => intro C f i n h; simp [runLoop] at h
  | cons s rest ih =>
    intro C f i n h
    by_cases hm : s.name ∈ C
    · simp only [runLoop, if_pos hm] at h ⊢
      cases i with
      | zero =>
        rw [List.getElem?_cons_succ] at h
        exact absurd h (runLoop_head_not_appended beh rest C f n)
      | succ i =>
        rw [List.getElem?_cons_succ] at h ⊢
        exact ih C f i n h
    · cases hb : beh s with
      | ok u =>
        simp only [runLoop, if_neg hm, hb] at h ⊢
        cases i with
        | zero =>
          rw [List.getElem?_cons_succ, List.getElem?_cons_zero] at h
          rw [Option.some.injEq, Event.appended.injEq] at h
          subst h
          rfl
        | succ i =>
          cases i with
          | zero => simp at h
          | succ i =>
            cases i with
            | zero =>
              rw [List.getElem?_cons_succ, List.getElem?_cons_succ,
                List.getElem?_cons_succ] at h
              exact absurd h
                (runLoop_head_not_appended beh rest (C ++ [s.name]) (some (C ++ [s.name])) n)
            | succ i =>
              rw [List.getElem?_cons_succ, List.getElem?_cons_succ,
                List.getElem?_cons_succ] at h ⊢
              exact ih (C ++ [s.name]) (some (C ++ [s.name])) i n h
      | error e =>
        simp only [runLoop, if_neg hm, hb] at h
        cases i with
        | zero => simp at h
        | succ i => simp at h

end Orch

namespace Orch

theorem filter_not_pre_names (pre post : List Step)
    (hnd : ((pre ++ post).map Step.name).Nodup) :
    (pre ++ post).filter (fun s => s.name ∉ pre.map Step.name) = post := by
  rw [List.map_append, List.nodup_append] at hnd
  rw [List.filter_append]
  have h1 : pre.filter (fun s => s.name ∉ pre.map Step.name) = [] := by
    rw [List.filter_eq_nil_iff]
    intro s hs
    simp [List.mem_map_of_mem Step.name hs]
  have h2 : post.filter (fun s => s.name ∉ pre.map Step.name) = post := by
    rw [List.filter_eq_self]
    intro s hs
    have hmem : s.name ∈ post.map Step.name := List.mem_map_of_mem _ hs
    have hnot : s.name ∉ pre.map Step.name := fun hc => hnd.2.2 hc hmem
    simpa using hnot
  rw [h1, h2, List.nil_append]

/-- C1: starting from a persisted completed set holding exactly the names
of the first `k` steps, and with every invoked step returning normally,
the run invokes exactly the steps whose names are not in the completed
set (equivalently, the steps after the prefix), in their original
relative order, emits a skip notice for every already-completed name,
and invokes no already-completed name again. -/
theorem C1_prefix_resume_invokes_exactly_pending
    (beh : Step → Except String Unit) (steps : List Step) (k : Nat)
    (hok : ∀ s ∈ steps, beh s = Except.ok ())
    (hnd : (steps.map Step.name).Nodup) :
    invokedNames (runLoop beh steps ((steps.take k).map Step.name)
        (some ((steps.take k).map Step.name))).1 =
      (steps.drop k).map Step.name ∧
    skippedNames (runLoop beh steps ((steps.take k).map Step.name)
        (some ((steps.take k).map Step.name))).1 =
      (steps.filter (fun s => s.name ∈ (steps.take k).map Step.name)).map Step.name ∧
    (∀ n ∈ (steps.take k).map Step.name,
      Event.skipped n ∈ (runLoop beh steps ((steps.take k).map Step.name)
        (some ((steps.take k).map Step.name))).1) ∧
    (∀ n ∈ (steps.take k).map Step.name,
      Event.invoked n ∉ (runLoop beh steps ((steps.take k).map Step.name)
        (some ((steps.take k).map Step.name))).1) := by
  obtain ⟨h1, h2⟩ := runLoop_ok_spec beh steps ((steps.take k).map Step.name)
    (some ((steps.take k).map Step.name)) hok hnd
  have hsplit : steps.take k ++ steps.drop k = steps := List.take_append_drop k steps
  have hfilt : steps.filter (fun s => s.name ∉ (steps.take k).map Step.name) = steps.drop k := by
    have := filter_not_pre_names (steps.take k) (steps.drop k) (by rw [hsplit]; exact hnd)
    rwa [hsplit] at this
  refine ⟨by rw [h1, hfilt], h2, ?_, ?_⟩
  · intro n hn
    rw [← mem_skippedNames, h2]
    obtain ⟨s, hs, hsn⟩ := List.mem_map.mp hn
    have hss : s ∈ steps := (List.take_subset k steps) hs
    have hsC : s.name ∈ (steps.take k).map Step.name := hsn ▸ hn
    refine List.mem_map.mpr ⟨s, ?_, hsn⟩
    rw [List.mem_filter]
    exact ⟨hss, by simpa using hsC⟩
  · intro n hn hcon
    rw [← mem_invokedNames, h1, hfilt] at hcon
    obtain ⟨s, hs, hsn⟩ := List.mem_map.mp hcon
    have hnd2 : ((steps.take k ++ steps.drop k).map Step.name).Nodup := by
      rw [hsplit]; exact hnd
    rw [List.map_append, List.nodup_append] at hnd2
    exact hnd2.2.2 hn (hsn ▸ List.mem_map_of_mem Step.name hs)

/-- C1 witness: resuming the concrete `STEPS` table with its first step
marked complete invokes exactly the remaining three steps in order. -/
theorem C1_witness :
    invokedNames (runLoop behAllOk STEPS ((STEPS.take 1).map Step.name)
        (some ((STEPS.take 1).map Step.name))).1 =
      (STEPS.drop 1).map Step.name :=
  (C1_prefix_resume_invokes_exactly_pending behAllOk STEPS 1
    (fun _ _ => rfl) (by decide)).1

end Orch

namespace Orch

/-- C2: when a step's invocation raises, the runner reports that step's
name and error (with the diagnostic trace, modelled by the `failed`
event), does not add the name to the completed set, leaves the in-memory
and persisted checkpoint state exactly as they were before that step,
and invokes no later step; the run itself returns normally (the loop is
a total function — the exception is consumed by the `except` clause). -/
theorem C2_failure_stops_run_and_preserves_state
    (beh : Step → Except String Unit) (pre post : List Step) (s : Step)
    (C : List String) (f : Option (List String)) (e : String)
    (hnd : (((pre ++ s :: post)).map Step.name).Nodup)
    (hpre : ∀ t ∈ pre, t.name ∈ C ∨ beh t = Except.ok ())
    (hsC : s.name ∉ C)
    (hfail : beh s = Except.error e) :
    Event.failed s.name e ∈ (runLoop beh (pre ++ s :: post) C f).1 ∧
    s.name ∉ (runLoop beh (pre ++ s :: post) C f).2.1 ∧
    (runLoop beh (pre ++ s :: post) C f).2.1 = (runLoop beh pre C f).2.1 ∧
    (runLoop beh (pre ++ s :: post) C f).2.2 = (runLoop beh pre C f).2.2 ∧
    (∀ t ∈ post, Event.invoked t.name ∉ (runLoop beh (pre ++ s :: post) C f).1) := by
  rw [List.map_append, List.nodup_append] at hnd
  obtain ⟨hndPre, hndCons, hdisj⟩ := hnd
  have hspre : s.name ∉ pre.map Step.name := fun hc => hdisj hc (by simp)
  have hrun := runLoop_failure beh s e hfail pre post C f hpre hsC hspre
  rw [List.map_cons, List.nodup_cons] at hndCons
  refine ⟨?_, ?_, by rw [hrun], by rw [hrun], ?_⟩
  · rw [hrun]
    exact List.mem_append_right _ (by simp)
  · rw [hrun]
    intro hcon
    have hc := runLoop_completed_eq beh pre C f
    rw [hc, List.mem_append] at hcon
    rcases hcon with h | h
    · exact hsC h
    · rw [mem_appendedNames] at h
      exact hspre (appended_mem_stepNames beh pre C f s.name h)
  · intro t ht hcon
    rw [hrun, List.mem_append] at hcon
    rcases hcon with h | h
    · have hmem := invoked_mem_stepNames beh pre C f t.name h
      refine hdisj hmem ?_
      rw [List.map_cons]
      exact List.mem_cons_of_mem _ (List.mem_map_of_mem Step.name ht)
    · rw [List.mem_cons, List.mem_singleton] at h
      rcases h with h | h
      · rw [Event.invoked.injEq] at h
        exact hndCons.1 (h ▸ List.mem_map_of_mem Step.name ht)
      · cases h

/-- C2 witness: with step `create_project` already complete and step
`enable_apis` failing, the run reports the failure, keeps the completed
set and the checkpoint file as before the failing step, and never
invokes the two later steps. -/
theorem C2_witness :
    Event.failed "enable_apis" "boom" ∈
      (runLoop behFailEnable
        ((STEPS.take 1) ++
          { name := "enable_apis", module := "scripts.enable_apis", func := "main",
            args := [("project_id", "prj-us-adv-aiagnt-nav-uat")] } :: (STEPS.drop 2))
        ["create_project"] (some ["create_project"])).1 ∧
    "enable_apis" ∉
      (runLoop behFailEnable
        ((STEPS.take 1) ++
          { name := "enable_apis", module := "scripts.enable_apis", func := "main",
            args := [("project_id", "prj-us-adv-aiagnt-nav-uat")] } :: (STEPS.drop 2))
        ["create_project"] (some ["create_project"])).2.1 := by
  have h := C2_failure_stops_run_and_preserves_state behFailEnable
    (STEPS.take 1) (STEPS.drop 2)
    { name := "enable_apis", module := "scripts.enable_apis", func := "main",
      args := [("project_id", "prj-us-adv-aiagnt-nav-uat")] }
    ["create_project"] (some ["create_project"]) "boom"
    (by decide) (by decide) (by decide) (by decide)
  exact ⟨h.1, h.2.1⟩

/-- C3: invariant of every run — a name is in the final in-memory
completed list, or in any checkpoint content ever saved, only if it was
there initially or its step's invocation returned without error; the
final file is the initial one or the content of a save the run made;
every `append` to the completed list is immediately followed by the
`save` that persists it (before anything else happens, in particular
before the next invocation — never batched); and every `append` is
immediately preceded by its step's invocation. -/
theorem C3_completed_only_after_success_and_saved_immediately
    (beh : Step → Except String Unit) (steps : List Step)
    (C : List String) (f : Option (List String)) :
    (∀ n ∈ (runLoop beh steps C f).2.1,
      n ∈ C ∨ ∃ s, s ∈ steps ∧ s.name = n ∧ beh s = Except.ok ()) ∧
    (∀ l, Event.saved l ∈ (runLoop beh steps C f).1 →
      ∀ n ∈ l, n ∈ C ∨ ∃ s, s ∈ steps ∧ s.name = n ∧ beh s = Except.ok ()) ∧
    ((runLoop beh steps C f).2.2 = f ∨
      ∃ l, (runLoop beh steps C f).2.2 = some l ∧
        Event.saved l ∈ (runLoop beh steps C f).1) ∧
    (∀ i n, (runLoop beh steps C f).1[i]? = some (Event.appended n) →
      ∃ l, (runLoop beh steps C f).1[i + 1]? = some (Event.saved l) ∧ n ∈ l) ∧
    (∀ i n, (runLoop beh steps C f).1[i + 1]? = some (Event.appended n) →
      (runLoop beh steps C f).1[i]? = some (Event.invoked n)) := by
  refine ⟨?_, ?_, runLoop_file_saved beh steps C f,
    runLoop_save_follows_append beh steps C f,
    runLoop_invoke_precedes_append beh steps C f⟩
  · intro n hn
    rw [runLoop_completed_eq beh steps C f, List.mem_append] at hn
    rcases hn with h | h
    · exact Or.inl h
    · rw [mem_appendedNames] at h
      exact Or.inr (appended_has_ok_step beh steps C f n h)
  · intro l hl n hn
    rcases runLoop_saved_content beh steps C f l hl n hn with h | h
    · exact Or.inl h
    · exact Or.inr (appended_has_ok_step beh steps C f n h)

/-- C3 witness: in the run where `create_project` succeeds and
`enable_apis` fails, the append of `create_project` (trace position 1)
is immediately followed by the save persisting it. -/
theorem C3_witness :
    ∃ l, (runLoop behFailEnable STEPS [] none).1[1 + 1]? = some (Event.saved l) ∧
      "create_project" ∈ l :=
  (C3_completed_only_after_success_and_saved_immediately
      behFailEnable STEPS [] none).2.2.2.1 1 "create_project" (by decide)

/-- C6: if every step invocation returns normally, then after one run
starting from any persisted state, a second run loaded from the state the
first run persisted skips every step: every step name is in the loaded
completed set, the second run's trace is exactly the skip notices in step
order, and the second run invokes nothing. -/
theorem C6_second_run_skips_every_step
    (beh : Step → Except String Unit) (steps : List Step)
    (file0 : Option (List String))
    (hok : ∀ s ∈ steps, beh s = Except.ok ()) :
    (∀ s ∈ steps, s.name ∈
      loadedCompleted (runLoop beh steps (loadedCompleted file0) file0).2.2) ∧
    (runLoop beh steps
        (loadedCompleted (runLoop beh steps (loadedCompleted file0) file0).2.2)
        (runLoop beh steps (loadedCompleted file0) file0).2.2).1 =
      steps.map (fun s => Event.skipped s.name) ∧
    invokedNames (runLoop beh steps
        (loadedCompleted (runLoop beh steps (loadedCompleted file0) file0).2.2)
        (runLoop beh steps (loadedCompleted file0) file0).2.2).1 = [] := by
  have hmem : ∀ s ∈ steps, s.name ∈
      loadedCompleted (runLoop beh steps (loadedCompleted file0) file0).2.2 := by
    intro s hs
    have hc := runLoop_mem_completed beh steps (loadedCompleted file0) file0 hok s hs
    rcases runLoop_file_cases beh steps (loadedCompleted file0) file0 with ⟨h1, h2⟩ | h1
    · have hceq := runLoop_completed_eq beh steps (loadedCompleted file0) file0
      rw [h2, List.append_nil] at hceq
      rw [h1]
      rw [hceq] at hc
      exact hc
    · rw [h1]
      exact hc
  have hskip := runLoop_all_skip beh steps
    (loadedCompleted (runLoop beh steps (loadedCompleted file0) file0).2.2)
    (runLoop beh steps (loadedCompleted file0) file0).2.2 hmem
  refine ⟨hmem, by rw [hskip], ?_⟩
  rw [hskip]
  simp [invokedNames, List.filterMap_map, Function.comp]

/-- C6 witness: two consecutive runs of the concrete `STEPS` table from
an absent checkpoint — the second run's trace is all skip notices. -/
theorem C6_witness :
    (runLoop behAllOk STEPS
        (loadedCompleted (runLoop behAllOk STEPS (loadedCompleted none) none).2.2)
        (runLoop behAllOk STEPS (loadedCompleted none) none).2.2).1 =
      STEPS.map (fun s => Event.skipped s.name) :=
  (C6_second_run_skips_every_step behAllOk STEPS none (fun _ _ => rfl)).2.1

end Orch

namespace Orch

theorem lookup_completed_eq_none (kvs : List (String × Json))
    (h : kvs.any (fun kv => kv.1 = "completed") = false) :
    kvs.lookup "completed" = none := by
  induction kvs with
  | nil => rfl
  | cons kv rest ih =>
    rw [List.any_cons, Bool.or_eq_false_iff] at h
    have hne : ("completed" == kv.1) = false := by
      have := h.1
      rw [decide_eq_false_iff_not] at this
      rw [beq_eq_false_iff_ne]
      exact fun hc => this hc.symm
    rw [List.lookup, hne]
    exact ih h.2

/-- C5 counterexample: an existing but empty checkpoint file does not
yield the fresh empty state — `json.load` has no value to parse and
raises a `JSONDecodeError`, which propagates out of `load_checkpoint`. -/
theorem C5_counterexample_empty_file :
    load_checkpoint (some "") = Except.error PyErr.jsonDecodeError := rfl

/-- C5 amended: `load_checkpoint` returns the fresh empty state
`\x7b"completed": []\x7d` when the checkpoint file is absent; when the
file exists but is empty, `json.load` raises a decode error instead. -/
theorem C5_amended_absent_fresh_empty_raises :
    load_checkpoint none = Except.ok (Json.obj [("completed", Json.arr [])]) ∧
    load_checkpoint (some "") = Except.error PyErr.jsonDecodeError :=
  ⟨rfl, rfl⟩

/-- C10 counterexample: the state `\x7b"completed": "abc"\x7d` is not an
object with a `"completed"` key mapping to a list, yet the runner's first
membership check does not raise — Python evaluates
`step_name in "abc"` as a substring test returning `False`. -/
theorem C10_counterexample_string_completed :
    load_checkpoint (some "\x7b\"completed\": \"abc\"\x7d") =
      Except.ok (Json.obj [("completed", Json.str "abc")]) ∧
    firstCheck (Json.obj [("completed", Json.str "abc")]) "create_project" =
      Except.ok false :=
  ⟨rfl, rfl⟩

/-- C10 amended: `load_checkpoint` returns any parseable content
unvalidated, and whenever the parsed state has no top-level
`"completed"` key — in particular the multi-scope shape
`\x7bscope: \x7b"completed": [...]\x7d\x7d`, or any non-object — the
runner raises at its first membership check: a `KeyError` when the state
is an object without the key, a `TypeError` when it is not an object.
(An object whose `"completed"` value is a string or an object passes the
membership check without raising, so the unvalidated-shape error is not
universal.) -/
theorem C10_amended_missing_completed_key_raises
    (sc : String) (stateJ : Json) (name : String)
    (hpar : jsonLoads sc = Except.ok stateJ)
    (hkey : hasCompletedKey stateJ = false) :
    load_checkpoint (some sc) = Except.ok stateJ ∧
    firstCheck stateJ name =
      Except.error (if isObj stateJ then PyErr.keyError else PyErr.typeError) := by
  constructor
  · rw [load_checkpoint]
    exact hpar
  · cases stateJ with
    | obj kvs =>
      rw [hasCompletedKey] at hkey
      rw [firstCheck, pySubscript, lookup_completed_eq_none kvs hkey]
      rfl
    | null => rfl
    | bool b => rfl
    | num n => rfl
    | str s => rfl
    | arr xs => rfl

/-- C10 witness: the multi-scope checkpoint content
`\x7b"dev": \x7b"completed": []\x7d\x7d` parses, is returned unvalidated, and
makes the runner raise a `KeyError` at its first membership check. -/
theorem C10_witness :
    load_checkpoint (some "\x7b\"dev\": \x7b\"completed\": []\x7d\x7d") =
      Except.ok (Json.obj [("dev", Json.obj [("completed", Json.arr [])])]) ∧
    firstCheck (Json.obj [("dev", Json.obj [("completed", Json.arr [])])])
        "create_project" =
      Except.error (if isObj (Json.obj [("dev", Json.obj [("completed", Json.arr [])])])
        then PyErr.keyError else PyErr.typeError) :=
  C10_amended_missing_completed_key_raises
    "\x7b\"dev\": \x7b\"completed\": []\x7d\x7d"
    (Json.obj [("dev", Json.obj [("completed", Json.arr [])])])
    "create_project" rfl rfl

end Orch

namespace Apis

/-- Behaviour of an API whose queried state is already `ENABLED`. -/
def apiBehEnabled : ApiBehavior :=
  { getResp := Except.ok (some "ENABLED"), enableResp := Except.ok none,
    pollResp := fun _ => Except.ok false }

/-- Behaviour of an API whose state query raises (e.g. a 403). -/
def apiBehFailGet : ApiBehavior :=
  { getResp := Except.error "403 permission denied", enableResp := Except.ok none,
    pollResp := fun _ => Except.ok false }

/-- Behaviour of a disabled API whose enable operation reports done on
the second status poll. -/
def apiBehPoll : ApiBehavior :=
  { getResp := Except.ok none, enableResp := Except.ok (some "operations/op-123"),
    pollResp := fun k => if k = 0 then Except.ok false else Except.ok true }

/-- Behaviour of a disabled API whose enable response carries no
operation `"name"` and whose operation never reports done. -/
def apiBehNoName : ApiBehavior :=
  { getResp := Except.ok none, enableResp := Except.ok none,
    pollResp := fun _ => Except.ok false }

/-- A two-API world in which the first API's state query raises and the
second is already enabled. -/
def demoWorld : String → ApiBehavior := fun a =>
  if a = "x.googleapis.com" then apiBehFailGet else apiBehEnabled

theorem pollLoop_spec (api : String) (poll : Nat → Except String Bool) :
    ∀ (n j fuel : Nat), poll (j + n) = Except.ok true →
    (∀ i < n, poll (j + i) = Except.ok false) → n < fuel →
    pollLoop api poll j fuel = some (pollSegment api j n, Except.ok ()) := by
  intro n
  induction n with
  | zero =>
    intro j fuel hdone _ hfuel
    cases fuel with
    | zero => omega
    | succ f =>
      rw [Nat.add_zero] at hdone
      simp only [pollLoop, hdone]
      rfl
  | succ n ih =>
    intro j fuel hdone hmin hfuel
    cases fuel with
    | zero => omega
    | succ f =>
      have h0 : poll j = Except.ok false := by
        have := hmin 0 (Nat.succ_pos n)
        rwa [Nat.add_zero] at this
      have hdone1 : poll (j + 1 + n) = Except.ok true := by
        have heq : j + (n + 1) = j + 1 + n := by omega
        rwa [heq] at hdone
      have hmin1 : ∀ i < n, poll (j + 1 + i) = Except.ok false := by
        intro i hi
        have := hmin (i + 1) (Nat.succ_lt_succ hi)
        have heq : j + (i + 1) = j + 1 + i := by omega
        rwa [heq] at this
      simp only [pollLoop, h0, ih (j + 1) f hdone1 hmin1 (by omega)]
      rfl

theorem runApiBody_ok_trace (b : ApiBehavior) (api : String) (fuel : Nat)
    (tr : List ApiEvent) (u : Unit)
    (h : runApiBody b api fuel = some (tr, Except.ok u)) :
    ∃ ev ∈ tr, eventApi ev = some api := by
  cases hg : b.getResp with
  | error e =>
    simp only [runApiBody, hg] at h
    rw [Option.some.injEq, Prod.mk.injEq] at h
    cases h.2
  | ok st =>
    simp only [runApiBody, hg] at h
    by_cases hst : st = some "ENABLED"
    · rw [if_pos hst] at h
      rw [Option.some.injEq, Prod.mk.injEq] at h
      exact ⟨ApiEvent.alreadyEnabled api, by rw [← h.1]; simp, rfl⟩
    · rw [if_neg hst] at h
      cases he : b.enableResp with
      | error e =>
        simp only [he] at h
        rw [Option.some.injEq, Prod.mk.injEq] at h
        cases h.2
      | ok op =>
        simp only [he] at h
        cases op with
        | none =>
          rw [Option.some.injEq, Prod.mk.injEq] at h
          exact ⟨ApiEvent.enabling api, by rw [← h.1]; simp, rfl⟩
        | some nm =>
          cases hp : pollLoop api b.pollResp 0 fuel with
          | none => rw [hp] at h; cases h
          | some r =>
            simp only [hp, Option.map_some'] at h
            rw [Option.some.injEq, Prod.mk.injEq] at h
            exact ⟨ApiEvent.enabling api, by rw [← h.1]; simp, rfl⟩

theorem processApi_mentions (b : ApiBehavior) (api : String) (fuel : Nat)
    (t : List ApiEvent) (h : processApi b api fuel = some t) :
    ∃ ev ∈ t, eventApi ev = some api := by
  cases hr : runApiBody b api fuel with
  | none =>
    rw [processApi, hr] at h
    exact Option.noConfusion h
  | some r =>
    obtain ⟨t1, r2⟩ := r
    cases r2 with
    | ok u =>
      have ht : t1 = t := by
        simp only [processApi, hr, Option.map_some'] at h
        exact Option.some.inj h
      obtain ⟨ev, hev, hap⟩ := runApiBody_ok_trace b api fuel t1 u hr
      exact ⟨ev, ht ▸ hev, hap⟩
    | error e =>
      have ht : t1 ++ [ApiEvent.errorLogged api e] = t := by
        simp only [processApi, hr, Option.map_some'] at h
        exact Option.some.inj h
      refine ⟨ApiEvent.errorLogged api e, ?_, rfl⟩
      rw [← ht]
      exact List.mem_append_right _ (by simp)

/-- C7: with enough polling fuel for each API, `enable_apis` always
returns normally (its only outcomes are traces — errors never propagate);
every API in the list is attempted (the trace mentions each of them),
and every API whose handling raised has its error caught and logged in
the trace, without aborting the remaining APIs. -/
theorem C7_per_api_errors_logged_not_propagated
    (w : String → ApiBehavior) (apis : List String) (fuel : Nat)
    (hfuel : ∀ a ∈ apis, (runApiBody (w a) a fuel).isSome = true) :
    (enable_apis w apis fuel).isSome = true ∧
    (∀ a ∈ apis, ∃ ev ∈ (enable_apis w apis fuel).getD [], eventApi ev = some a) ∧
    (∀ a ∈ apis, ∀ tr e, runApiBody (w a) a fuel = some (tr, Except.error e) →
      ApiEvent.errorLogged a e ∈ (enable_apis w apis fuel).getD []) := by
  induction apis with
  | nil =>
    refine ⟨rfl, ?_, ?_⟩
    · intro a ha
      cases ha
    · intro a ha
      cases ha
  | cons a rest ih =>
    have hra : (runApiBody (w a) a fuel).isSome = true :=
      hfuel a (List.mem_cons_self a rest)
    obtain ⟨r, hr⟩ := Option.isSome_iff_exists.mp hra
    obtain ⟨t1, r2⟩ := r
    obtain ⟨h1, h2, h3⟩ := ih (fun a2 ha2 => hfuel a2 (List.mem_cons_of_mem _ ha2))
    obtain ⟨ts, hts⟩ := Option.isSome_iff_exists.mp h1
    cases r2 with
    | ok u =>
      have hpa : processApi (w a) a fuel = some t1 := by
        simp only [processApi, hr, Option.map_some']
      have hall : enable_apis w (a :: rest) fuel = some (t1 ++ ts) := by
        simp only [enable_apis, hpa, hts]
      refine ⟨by rw [hall]; rfl, ?_, ?_⟩
      · intro a2 ha2
        rcases List.mem_cons.mp ha2 with hEq | ha2
        · subst hEq
          obtain ⟨ev, hev, hap⟩ := processApi_mentions (w a2) a2 fuel t1 hpa
          exact ⟨ev, by rw [hall]; exact List.mem_append_left _ hev, hap⟩
        · obtain ⟨ev, hev, hap⟩ := h2 a2 ha2
          rw [hts] at hev
          exact ⟨ev, by rw [hall]; exact List.mem_append_right _ hev, hap⟩
      · intro a2 ha2 tr e hre
        rcases List.mem_cons.mp ha2 with hEq | ha2
        · subst hEq
          rw [hr, Option.some.injEq, Prod.mk.injEq] at hre
          cases hre.2
        · have hin := h3 a2 ha2 tr e hre
          rw [hts] at hin
          rw [hall]
          exact List.mem_append_right _ hin
    | error e1 =>
      have hpa : processApi (w a) a fuel =
          some (t1 ++ [ApiEvent.errorLogged a e1]) := by
        simp only [processApi, hr, Option.map_some']
      have hall : enable_apis w (a :: rest) fuel =
          some ((t1 ++ [ApiEvent.errorLogged a e1]) ++ ts) := by
        simp only [enable_apis, hpa, hts]
      refine ⟨by rw [hall]; rfl, ?_, ?_⟩
      · intro a2 ha2
        rcases List.mem_cons.mp ha2 with hEq | ha2
        · subst hEq
          obtain ⟨ev, hev, hap⟩ := processApi_mentions (w a2) a2 fuel _ hpa
          exact ⟨ev, by rw [hall]; exact List.mem_append_left _ hev, hap⟩
        · obtain ⟨ev, hev, hap⟩ := h2 a2 ha2
          rw [hts] at hev
          exact ⟨ev, by rw [hall]; exact List.mem_append_right _ hev, hap⟩
      · intro a2 ha2 tr e hre
        rcases List.mem_cons.mp ha2 with hEq | ha2
        · subst hEq
          rw [hr, Option.some.injEq, Prod.mk.injEq] at hre
          have he : e1 = e := Except.error.inj hre.2
          subst he
          rw [hall]
          exact List.mem_append_left _ (List.mem_append_right _ (by simp))
        · have hin := h3 a2 ha2 tr e hre
          rw [hts] at hin
          rw [hall]
          exact List.mem_append_right _ hin

/-- C7 witness: of two APIs, checking the first raises and the second is
already enabled — the step still returns a trace and the first API's
error is logged in it. -/
theorem C7_witness :
    ApiEvent.errorLogged "x.googleapis.com" "403 permission denied" ∈
      (enable_apis demoWorld ["x.googleapis.com", "y.googleapis.com"] 1).getD [] :=
  (C7_per_api_errors_logged_not_propagated demoWorld
      ["x.googleapis.com", "y.googleapis.com"] 1 (by decide)).2.2
    "x.googleapis.com" (by simp) [] "403 permission denied" rfl

/-- C9 counterexample: for a disabled API whose enable response carries
no operation `"name"`, the code issues the enable request but performs
no status poll at all and finishes the item successfully, even though
its operation never reports done — refuting the claim that every
enable-requested item is polled until the operation reports done. -/
theorem C9_counterexample_no_operation_name :
    runApiBody apiBehNoName "certificatemanager.googleapis.com" 5 =
      some ([ApiEvent.enabling "certificatemanager.googleapis.com"], Except.ok ()) ∧
    apiBehNoName.pollResp 0 = Except.ok false :=
  ⟨rfl, rfl⟩

/-- C9 amended: an API whose queried state is `ENABLED` is skipped with
no enable request; a disabled API gets an enable request and — when the
enable response carries an operation name — is polled at a fixed
two-second interval, finishing exactly at the first poll that reports
done (so when the operation eventually reports done, the polling loop
terminates); when the enable response has no operation name the item
finishes immediately without polling (best-effort wait). -/
theorem C9_amended_conditional_polling
    (bA bB : ApiBehavior) (a b nm : String) (stB : Option String)
    (n fuelA fuelB : Nat)
    (hA : bA.getResp = Except.ok (some "ENABLED"))
    (hgB : bB.getResp = Except.ok stB)
    (hne : stB ≠ some "ENABLED")
    (hop : bB.enableResp = Except.ok (some nm))
    (hdone : bB.pollResp n = Except.ok true)
    (hmin : ∀ i < n, bB.pollResp i = Except.ok false)
    (hfuel : n < fuelB) :
    runApiBody bA a fuelA = some ([ApiEvent.alreadyEnabled a], Except.ok ()) ∧
    runApiBody bB b fuelB =
      some (ApiEvent.enabling b :: pollSegment b 0 n, Except.ok ()) := by
  constructor
  · simp [runApiBody, hA]
  · simp only [runApiBody, hgB, hop, if_neg hne]
    rw [pollLoop_spec b bB.pollResp n 0 fuelB (by rwa [Nat.zero_add])
      (fun i hi => by have := hmin i hi; rwa [Nat.zero_add]) hfuel]
    rfl

/-- C9 witness: one already-enabled API is skipped, and one disabled API
is enabled and polled, the operation reporting done on the second poll. -/
theorem C9_witness :
    runApiBody apiBehEnabled "certificatemanager.googleapis.com" 0 =
      some ([ApiEvent.alreadyEnabled "certificatemanager.googleapis.com"],
        Except.ok ()) ∧
    runApiBody apiBehPoll "iam.googleapis.com" 2 =
      some (ApiEvent.enabling "iam.googleapis.com" ::
        pollSegment "iam.googleapis.com" 0 1, Except.ok ()) :=
  C9_amended_conditional_polling apiBehEnabled apiBehPoll
    "certificatemanager.googleapis.com" "iam.googleapis.com"
    "operations/op-123" none 1 0 2 rfl rfl (by decide) rfl rfl
    (fun i hi => by rw [Nat.lt_one_iff.mp hi]; rfl) (by decide)

end Apis

namespace Iam

/-- The service-account email of the concrete run in test.py's main
block (account `sa-test1-a-468317` in project `test2-b-468317`). -/
def demoEmail : String :=
  "sa-test1-a-468317@test2-b-468317.iam.gserviceaccount.com"

/-- A fetched policy that binds `roles/viewer` but not the account. -/
def demoPolicy0 : Policy :=
  { bindings := [{ role := "roles/viewer",
                   members := ["user:alice@example.com"] }] }

/-- The policy after one assignment call: exactly one
`serviceAccount:` member entry appended to the `roles/viewer` binding. -/
def demoPolicy1 : Policy :=
  { bindings := [{ role := "roles/viewer",
                   members := ["user:alice@example.com",
                               "serviceAccount:" ++ demoEmail] }] }

theorem alreadyExists_isInfix (email : String) :
    List.IsInfix "already exists".toList (alreadyExistsMsg email).toList := by
  refine List.IsSuffix.isInfix ⟨("Service account " ++ email ++ " ").toList, ?_⟩
  rw [alreadyExistsMsg]
  simp only [String.toList, String.data_append, List.append_assoc]
  refine congrArg _ (congrArg _ ?_)
  decide

/-- C8: calling `create_service_account` twice with the same project id
and account id never raises — the second call's remote create fails with
an "already exists" error, which the function treats as success — and
both calls return the same service-account email, computed
deterministically as `id@project.iam.gserviceaccount.com`. -/
theorem C8_create_twice_same_email (w : IamWorld) (p id dn dn2 : String) :
    (create_service_account w p id dn).2 = Except.ok (sa_email id p) ∧
    (iamCreate (create_service_account w p id dn).1 p id).2 =
      Except.error (alreadyExistsMsg (sa_email id p)) ∧
    (create_service_account (create_service_account w p id dn).1 p id dn2).2 =
      Except.ok (sa_email id p) := by
  by_cases hmem : (p, id) ∈ w.accounts
  · have h1 : create_service_account w p id dn = (w, Except.ok (sa_email id p)) := by
      simp [create_service_account, iamCreate, hmem]
      exact alreadyExists_isInfix (sa_email id p)
    rw [h1]
    have h2 : create_service_account w p id dn2 = (w, Except.ok (sa_email id p)) := by
      simp [create_service_account, iamCreate, hmem]
      exact alreadyExists_isInfix (sa_email id p)
    rw [h2]
    refine ⟨rfl, ?_, rfl⟩
    simp [iamCreate, hmem]
  · have h1 : create_service_account w p id dn =
        ({ accounts := w.accounts ++ [(p, id)] }, Except.ok (sa_email id p)) := by
      simp [create_service_account, iamCreate, hmem]
    rw [h1]
    have hmem2 : (p, id) ∈ (w.accounts ++ [(p, id)]) :=
      List.mem_append_right _ (by simp)
    have h2 : create_service_account { accounts := w.accounts ++ [(p, id)] } p id dn2 =
        ({ accounts := w.accounts ++ [(p, id)] }, Except.ok (sa_email id p)) := by
      simp [create_service_account, iamCreate, hmem2]
      exact alreadyExists_isInfix (sa_email id p)
    rw [h2]
    refine ⟨rfl, ?_, rfl⟩
    simp [iamCreate, hmem2]

/-- C4 evaluated at the failing input: with the policy already binding
`roles/viewer` but not the service account, the first call appends
exactly one `serviceAccount:` member entry and issues exactly one
`setIamPolicy` update — but a second identical call, whose fetched
policy now contains exactly the member entry the first call wrote,
appends a duplicate entry (the code probes the members for the bare
`sa_email` string while writing the prefixed `serviceAccount:` form, so
the probe can never match) and issues a policy-changing update instead
of a no-op. -/
theorem C4_duplicate_member_at_failing_input :
    (assign_roles_to_sa_in_project demoEmail "test1-a-468317"
        ["roles/viewer"] demoPolicy0).1 = demoPolicy1 ∧
    (assign_roles_to_sa_in_project demoEmail "test1-a-468317"
        ["roles/viewer"] demoPolicy0).2 = [demoPolicy1] ∧
    ((assign_roles_to_sa_in_project demoEmail "test1-a-468317"
        ["roles/viewer"] demoPolicy1).1.bindings.map
      (fun bd => bd.members.count ("serviceAccount:" ++ demoEmail))) = [2] ∧
    (assign_roles_to_sa_in_project demoEmail "test1-a-468317"
        ["roles/viewer"] demoPolicy1).2 ≠ [demoPolicy1] := by
  refine ⟨?_, ?_, ?_, ?_⟩ <;> decide

end Iam
